import Mathlib

/-!
Verification development for the powerseries repository (powerseries.py,
powerfunc.py, MemoizedGenerator.py).

A PowerSeries is represented in the source as a lazy, memoized generator of
Fraction coefficients, padded with zeros forever once the underlying
generator is exhausted (PowerSeries._gen).  Its observable behaviour is
therefore exactly a total function from coefficient index to rational, so
the shallow embedding models a series as a function from natural numbers
to rationals.

Self-referential series (reciprocal, exponential, square root, inverse and
the ODE-defined named series) are defined in the source by generators that
mention the very series being built; each coefficient is produced after
consulting only strictly earlier coefficients of the result (productivity).
The embedding realizes such a definition with the selfRefList combinator,
which mirrors the memoized cache of the source: it builds the list of the
first n coefficients, feeding each step the prefix already produced.  The
generic fixpoint lemma selfRef_fix shows that, whenever the step function
only reads strictly earlier indices (as every source generator does), the
resulting series satisfies the source's self-referential recurrence.

Rational arithmetic is Mathlib's exact rationals, matching Python's
Fraction (exact, total, no overflow).
-/

namespace PowSer

/-- Shift a series left by one: coefficient n of tail(S) is coefficient n+1
of S (PowerSeries.tail, powerseries.py lines 288-301). -/
def tail (S : ℕ → ℚ) : ℕ → ℚ := fun n => S (n + 1)

/-- Series whose only possibly nonzero coefficient is the zeroth, equal to
the zeroth coefficient of S (PowerSeries.head, powerseries.py lines 276-286:
the generator yields self.zero once and the stream is then zero padded). -/
def head (S : ℕ → ℚ) : ℕ → ℚ
  | 0 => S 0
  | _ + 1 => 0

/-- Shift a series right by one, prepending a zero coefficient
(PowerSeries.xmul, powerseries.py lines 303-327). -/
def xmul (S : ℕ → ℚ) : ℕ → ℚ
  | 0 => 0
  | j + 1 => S j

/-- Coefficient-wise sum (PowerSeries.__add__, powerseries.py lines 329-357:
izip_longest with zero fill over the two zero-padded streams). -/
def add (S T : ℕ → ℚ) : ℕ → ℚ := fun n => S n + T n

/-- Multiplication by a rational scalar, with the two fast paths of
PowerSeries.__mul__ (powerseries.py lines 402-411): factor 1 returns the
series itself, factor 0 returns the empty (all-zero) series, otherwise
every coefficient is multiplied by the factor. -/
def smul (c : ℚ) (S : ℕ → ℚ) : ℕ → ℚ :=
  if c = 1 then S else if c = 0 then (fun _ => 0) else fun n => c * S n

/-- Series product (PowerSeries.__mul__, powerseries.py lines 413-429).
The generator yields S0*T0 first and then the coefficient-wise sum of
(tail S * tail T).xmul, S0 * tail T (omitted when S0 = 0) and
T0 * tail S (omitted when T0 = 0); sum starts from 0.  Coefficient n+1 of
the product is therefore that sum's coefficient n, and the xmul summand
contributes 0 at n = 0 and the recursive product's coefficient m at
n = m+1. -/
def mul (S T : ℕ → ℚ) : ℕ → ℚ
  | 0 => S 0 * T 0
  | 1 => 0 + (if S 0 ≠ 0 then S 0 * tail T 0 else 0)
      + (if T 0 ≠ 0 then T 0 * tail S 0 else 0)
  | m + 2 => mul (tail S) (tail T) m
      + (if S 0 ≠ 0 then S 0 * tail T (m + 1) else 0)
      + (if T 0 ≠ 0 then T 0 * tail S (m + 1) else 0)

/-- Antiderivative with integration constant c (PowerSeries.integral,
powerseries.py lines 522-545): yields c, then Fraction(1, n+1) times
coefficient n of S). -/
def integral (S : ℕ → ℚ) (c : ℚ) : ℕ → ℚ
  | 0 => c
  | n + 1 => (1 / ((n : ℚ) + 1)) * S n

/-- Derivative (PowerSeries.derivative, powerseries.py lines 506-520):
coefficient n is Fraction(n+1, 1) times coefficient n of tail S). -/
def derivative (S : ℕ → ℚ) : ℕ → ℚ := fun n => ((n : ℚ) + 1) * tail S n

/-- Series with a single coefficient coeff at index n (the nthpower
constructor, powerseries.py lines 714-732: n zeros, then coeff, then the
zero padding of the exhausted generator). -/
def nthpower (n : ℕ) (coeff : ℚ) : ℕ → ℚ := fun k => if k = n then coeff else 0

/-- Prefix cache of a self-referential generator: step n receives the list
of the n coefficients already produced (as a function, with 0 beyond the
prefix, which a productive step never reads) and produces coefficient n.
This mirrors how the source's memoized generators realize a series whose
generator mentions the series itself: by the time coefficient n is
computed, coefficients 0..n-1 sit in the MemoizedGenerator cache. -/
def selfRefList (next : (ℕ → ℚ) → ℕ → ℚ) : ℕ → List ℚ
  | 0 => []
  | n + 1 =>
    let p := selfRefList next n
    p ++ [next (fun k => p.getD k 0) n]

/-- The series defined by a self-referential generator: coefficient n is
entry n of the n+1-entry prefix cache. -/
def selfRef (next : (ℕ → ℚ) → ℕ → ℚ) : ℕ → ℚ :=
  fun n => (selfRefList next (n + 1)).getD n 0

/-- Reciprocal 1/S (PowerSeries.reciprocal, powerseries.py lines 583-614):
with r = 1/S0, yield r, then the terms of (-r) * (tail S * R) where R is
the reciprocal series itself. -/
def reciprocal (S : ℕ → ℚ) : ℕ → ℚ :=
  selfRef (fun R j =>
    match j with
    | 0 => 1 / S 0
    | m + 1 => smul (-(1 / S 0)) (mul (tail S) R) m)

/-- Exponential e ** S (PowerSeries.exponential, powerseries.py lines
547-581): the terms of (E * derivative S).integral(1) where E is the
exponential series itself. -/
def exponential (S : ℕ → ℚ) : ℕ → ℚ :=
  selfRef (fun E j => integral (mul E (derivative S)) 1 j)

/-- Logarithm log(1 + S) (PowerSeries.logarithm, powerseries.py lines
677-711): the terms of (derivative S / (1 + S)).integral(), where division
is multiplication by the reciprocal and 1 + S adds the constant series. -/
def logarithm (S : ℕ → ℚ) : ℕ → ℚ :=
  integral (mul (derivative S) (reciprocal (add S (nthpower 0 1)))) 0

/-- Square root of S (PowerSeries.squareroot, powerseries.py lines 652-675):
yield s0, then the terms of tail S * (s0 + SQ).reciprocal() where SQ is the
square-root series itself.  In the source s0 is
Fraction.from_float(math.sqrt(S0)); it is passed here as a parameter.  For
every series this development takes a square root of, S0 = 1, and
math.sqrt(1.0) = 1.0 converts back to the exact Fraction 1, so s0 = 1
models the source exactly there. -/
def squareroot (s0 : ℚ) (S : ℕ → ℚ) : ℕ → ℚ :=
  selfRef (fun Q j =>
    match j with
    | 0 => s0
    | m + 1 => mul (tail S) (reciprocal (add Q (nthpower 0 s0))) m)

/-- Prefix of length L of the composition S(T) (PowerSeries.compose,
powerseries.py lines 478-499): the generator yields S0 and then the terms
of tail T * (tail S)(T).  The inner composition (tail S)(T) is represented
by its own prefix of length L-1, which suffices because the product reads
its factors only up to the index being produced. -/
def composePre (T : ℕ → ℚ) : (ℕ → ℚ) → ℕ → List ℚ
  | _, 0 => []
  | S, L + 1 =>
    let inner := composePre T (tail S) L
    S 0 :: (List.range L).map (fun m => mul (tail T) (fun k => inner.getD k 0) m)

/-- Composition S(T) (PowerSeries.compose): coefficient n read off the
prefix of length n+1. -/
def compose (S T : ℕ → ℚ) : ℕ → ℚ := fun n => (composePre T S (n + 1)).getD n 0

/-- Compositional inverse (PowerSeries.inverse, powerseries.py lines
616-650): with F = tail S and r = 1/F0, yield 0, then r, then the terms of
(-r) * ((T * T) * (tail F)(I)) where I is the inverse series itself and
T = tail I. -/
def inverse (S : ℕ → ℚ) : ℕ → ℚ :=
  selfRef (fun I j =>
    match j with
    | 0 => 0
    | 1 => 1 / tail S 0
    | m + 2 => smul (-(1 / tail S 0))
        (mul (mul (tail I) (tail I)) (compose (tail (tail S)) I)) m)

/-- The exponential series (expseries, powerseries.py lines 881-915): the
terms of integ(EXP, 1) where EXP is the series itself. -/
def expseries : ℕ → ℚ := selfRef (fun E n => integral E 1 n)

/-- The sine series (sinseries, powerseries.py lines 918-941): the terms of
integ(integ(-SIN, 1)) where SIN is the series itself; the outer integration
constant is the default 0. -/
def sinseries : ℕ → ℚ :=
  selfRef (fun Y n => integral (integral (smul (-1) Y) 1) 0 n)

/-- The cosine series (cosseries, powerseries.py lines 944-972): the terms
of integ(integ(-COS), 1). -/
def cosseries : ℕ → ℚ :=
  selfRef (fun Y n => integral (integral (smul (-1) Y) 0) 1 n)

/-- The tangent series (tanseries, powerseries.py lines 975-1005): the
terms of integ(ONE + (TAN * TAN)). -/
def tanseries : ℕ → ℚ :=
  selfRef (fun T n => integral (add (nthpower 0 1) (mul T T)) 0 n)

/-- The secant series (secseries, powerseries.py lines 1008-1034): the
terms of integ(SEC * TAN, 1) with TAN the tangent series. -/
def secseries : ℕ → ℚ :=
  selfRef (fun SEC n => integral (mul SEC tanseries) 1 n)

/-- The hyperbolic sine series (sinhseries, powerseries.py lines
1119-1142): the terms of integ(integ(SINH, 1)). -/
def sinhseries : ℕ → ℚ :=
  selfRef (fun Y n => integral (integral Y 1) 0 n)

/-- The hyperbolic cosine series (coshseries, powerseries.py lines
1145-1173): the terms of integ(integ(COSH), 1). -/
def coshseries : ℕ → ℚ :=
  selfRef (fun Y n => integral (integral Y 0) 1 n)

/-- The hyperbolic tangent series (tanhseries, powerseries.py lines
1176-1203): the terms of integ(ONE - (TANH * TANH)), where subtraction is
addition of the scalar -1 multiple. -/
def tanhseries : ℕ → ℚ :=
  selfRef (fun T n => integral (add (nthpower 0 1) (smul (-1) (mul T T))) 0 n)

/-- The hyperbolic secant series (sechseries, powerseries.py lines
1206-1230): the terms of integ(- SECH * TANH, 1). -/
def sechseries : ℕ → ℚ :=
  selfRef (fun SECH n => integral (mul (smul (-1) SECH) tanhseries) 1 n)

/-- The natural-number series (nseries, powerseries.py lines 827-830):
term function n maps to Fraction(n, 1). -/
def nseries : ℕ → ℚ := fun n => (n : ℚ)

/-- The harmonic series (harmonicseries, powerseries.py lines 833-858):
term function n maps to Fraction(1, n) when n is nonzero, else 0. -/
def harmonicseries : ℕ → ℚ := fun n => if n = 0 then 0 else 1 / (n : ℚ)

/-- The alternating-sign harmonic series (altharmonicseries,
powerseries.py lines 861-878): term function n maps to
Fraction((-1, 1)[n % 2], n) when n is nonzero, else 0. -/
def altharmonicseries : ℕ → ℚ :=
  fun n => if n = 0 then 0 else (if n % 2 = 1 then 1 else -1) / (n : ℚ)

/-- The arcsine series (arcsinseries, powerseries.py lines 1037-1075): the
terms of integ(ONE / sqrt(ONE - X2)); division is multiplication by the
reciprocal, ONE - X2 is add of the scalar -1 multiple, and the square
root's s0 is Fraction.from_float(math.sqrt(1)) = 1. -/
def arcsinseries : ℕ → ℚ :=
  integral (mul (nthpower 0 1)
    (reciprocal (squareroot 1 (add (nthpower 0 1) (smul (-1) (nthpower 2 1)))))) 0

/-- The arctangent series (arctanseries, powerseries.py lines 1078-1116):
the terms of integ(ONE / (ONE + X2)). -/
def arctanseries : ℕ → ℚ :=
  integral (mul (nthpower 0 1) (reciprocal (add (nthpower 0 1) (nthpower 2 1)))) 0

/-- The hyperbolic arcsine series (arcsinhseries, powerseries.py lines
1233-1270): the terms of integ(ONE / sqrt(ONE + X2)), with s0 = 1 as for
arcsinseries. -/
def arcsinhseries : ℕ → ℚ :=
  integral (mul (nthpower 0 1)
    (reciprocal (squareroot 1 (add (nthpower 0 1) (nthpower 2 1))))) 0

/-- The hyperbolic arctangent series (arctanhseries, powerseries.py lines
1273-1310): the terms of integ(ONE / (ONE - X2)). -/
def arctanhseries : ℕ → ℚ :=
  integral (mul (nthpower 0 1)
    (reciprocal (add (nthpower 0 1) (smul (-1) (nthpower 2 1))))) 0

/-- Equality as implemented by PowerSeries.__eq__ (powerseries.py lines
235-251) with the default testlimit: agreement of the first 10
coefficients. -/
def seriesEq (S T : ℕ → ℚ) : Prop := ∀ n < 10, S n = T n

instance (S T : ℕ → ℚ) : Decidable (seriesEq S T) :=
  inferInstanceAs (Decidable (∀ n < 10, S n = T n))

/-- Domain outcome of an operation constructor: the source raises
ValueError synchronously inside the method, before the result series is
returned or any of its coefficients is demanded; the embedding returns
Except.error () there instead. -/
def isOk {α : Type} : Except Unit α → Bool
  | Except.ok _ => true
  | Except.error _ => false

/-- Guarded reciprocal (powerseries.py lines 604-614): raises iff the
zeroth coefficient is 0. -/
def reciprocalE (S : ℕ → ℚ) : Except Unit (ℕ → ℚ) :=
  if S 0 = 0 then Except.error () else Except.ok (reciprocal S)

/-- Guarded square root (powerseries.py lines 664-675): raises iff the
zeroth coefficient is 0. -/
def squarerootE (s0 : ℚ) (S : ℕ → ℚ) : Except Unit (ℕ → ℚ) :=
  if S 0 = 0 then Except.error () else Except.ok (squareroot s0 S)

/-- Guarded exponential (powerseries.py lines 573-581): raises iff the
zeroth coefficient is nonzero. -/
def exponentialE (S : ℕ → ℚ) : Except Unit (ℕ → ℚ) :=
  if S 0 ≠ 0 then Except.error () else Except.ok (exponential S)

/-- Guarded logarithm (powerseries.py lines 703-711): raises iff the
zeroth coefficient is nonzero. -/
def logarithmE (S : ℕ → ℚ) : Except Unit (ℕ → ℚ) :=
  if S 0 ≠ 0 then Except.error () else Except.ok (logarithm S)

/-- Guarded composition (powerseries.py lines 487-499): raises iff the
argument's zeroth coefficient is nonzero. -/
def composeE (S T : ℕ → ℚ) : Except Unit (ℕ → ℚ) :=
  if T 0 ≠ 0 then Except.error () else Except.ok (compose S T)

/-- Guarded compositional inverse (powerseries.py lines 635-650): raises
iff the zeroth coefficient is nonzero, or the tail's zeroth coefficient
is zero. -/
def inverseE (S : ℕ → ℚ) : Except Unit (ℕ → ℚ) :=
  if S 0 ≠ 0 then Except.error ()
  else if tail S 0 = 0 then Except.error ()
  else Except.ok (inverse S)

/-! Evaluator (powerfunc.py).  PowerFunction wraps a series and computes
its value at a rational x by summing coefficient * x^n terms, with
convergence and divergence testing in PowerFunction.converged.  Arithmetic
on exact rationals is total, so the OverflowError branch of the source
(lines 159-163) is unreachable in the embedding. -/

/-- Class field PowerFunction.ratio_max (powerfunc.py line 110). -/
def ratio_max : ℕ := 5

/-- Class field PowerFunction.error_terms (powerfunc.py line 108). -/
def error_terms : ℕ := 1

/-- Class field PowerFunction.terms_max (powerfunc.py line 109). -/
def terms_max : ℕ := 50

/-- Class field PowerFunction.error (powerfunc.py line 107). -/
def default_error : ℚ := 1 / 10000

/-- Appending to a collections.deque with a maximum length: the new element
goes to the right and elements are discarded from the left until the length
bound holds. -/
def dequeAppend (maxlen : ℕ) (l : List ℚ) (t : ℚ) : List ℚ :=
  let l2 := l ++ [t]
  if maxlen < l2.length then l2.drop (l2.length - maxlen) else l2

/-- The mutable convergence-testing fields of a PowerFunction, set by
_clear_testfields (powerfunc.py lines 170-174): the deque of recent
nonzero terms, the last nonzero term for the ratio test, and the number of
times the ratio test has failed. -/
structure ConvState where
  terms_last : List ℚ
  ratio_last : Option ℚ
  ratio_count : ℕ
deriving DecidableEq

/-- The state _clear_testfields installs at the start of every call. -/
def clearTestfields : ConvState := ⟨[], none, 0⟩

/-- Whether the ratio test fires for this term (powerfunc.py line 214):
the stored last nonzero term must be truthy (a nonzero Fraction; the
source only ever stores nonzero terms) and the absolute ratio of the
current term to it must exceed 1. -/
def ratioFires (ratio_last : Option ℚ) (term : ℚ) : Bool :=
  match ratio_last with
  | none => false
  | some r => decide (r ≠ 0) && decide (1 < |term / r|)

/-- One call of PowerFunction.converged (powerfunc.py lines 176-219) on a
nonzero-or-zero term, given the updated running result.  Returns the error
outcome when the ratio test raises DivergenceError, otherwise the returned
boolean (series converged) and the updated test fields. -/
def convergedStep (err result term : ℚ) (st : ConvState) :
    Except Unit (Bool × ConvState) :=
  if term ≠ 0 then
    let tl := dequeAppend error_terms st.terms_last term
    if |tl.sum| < |err * result| then
      Except.ok (true, { st with terms_last := tl })
    else
      let cnt := if ratioFires st.ratio_last term then st.ratio_count + 1
        else st.ratio_count
      if ratio_max < cnt then Except.error ()
      else Except.ok (false, ⟨tl, some term, cnt⟩)
  else Except.ok (false, st)

/-- Outcome of PowerFunction.__call__: either the computed rational
together with how many terms of the series were consumed and whether the
loop stopped early through the convergence test, or DivergenceError. -/
inductive EvalOut where
  | val (result : ℚ) (termsUsed : ℕ) (stoppedEarly : Bool)
  | divergenceError
deriving DecidableEq

/-- The summation loop of PowerFunction.__call__ (powerfunc.py lines
155-168): starting at term index n with the given remaining number of
terms (islice bound), running sum and power of x, accumulate term = t * xt
into the result, consult converged (breaking on true, propagating
DivergenceError), and multiply xt by x. Returns the outcome together with
the final test fields left in the PowerFunction. -/
def evalLoop (S : ℕ → ℚ) (x err : ℚ) :
    ℕ → ℕ → ℚ → ℚ → ConvState → EvalOut × ConvState
  | n, 0, result, _, st => (EvalOut.val result n false, st)
  | n, fuel + 1, result, xt, st =>
    let term := S n * xt
    let result2 := result + term
    match convergedStep err result2 term st with
    | Except.error _ => (EvalOut.divergenceError, st)
    | Except.ok (true, st2) => (EvalOut.val result2 (n + 1) true, st2)
    | Except.ok (false, st2) => evalLoop S x err (n + 1) fuel result2 (xt * x) st2

/-- The optional arguments of PowerFunction.__call__ (powerfunc.py line
119): x (already an exact rational), terms, error, figures. -/
structure CallArgs where
  x : ℚ
  terms : Option ℕ
  error : Option ℚ
  figures : Option ℕ

/-- Argument resolution of __call__ (powerfunc.py lines 148-153): terms
defaults to terms_max. -/
def resolveTerms (a : CallArgs) : ℕ := a.terms.getD terms_max

/-- Argument resolution of __call__ (powerfunc.py lines 150-154): figures,
when given, overrides error with 1/10^figures; otherwise error defaults to
the class field; finally the absolute value is taken. -/
def resolveError (a : CallArgs) : ℚ :=
  let e : ℚ :=
    match a.figures with
    | some d => 1 / (10 : ℚ) ^ d
    | none =>
      match a.error with
      | some e0 => e0
      | none => default_error
  |e|

/-- PowerFunction.__call__ (powerfunc.py lines 119-168) on the persistent
object state: the convergence-test fields left over from any previous call
are passed in, unconditionally overwritten by _clear_testfields, and the
summation loop runs from result 0 and xt 1.  Returns the outcome and the
test fields the call leaves behind. -/
def powerFunctionCall (S : ℕ → ℚ) (a : CallArgs) (pre : ConvState) :
    EvalOut × ConvState :=
  let _ := pre
  evalLoop S a.x (resolveError a) 0 (resolveTerms a) 0 1 clearTestfields

/-- The outcome of a single call (the value the source returns, or the
DivergenceError it raises). -/
def callResult (S : ℕ → ℚ) (a : CallArgs) : EvalOut :=
  (powerFunctionCall S a clearTestfields).1

/-- A sequence of calls on one PowerFunction object, threading the
persistent convergence-test fields from call to call. -/
def callSeq (S : ℕ → ℚ) : List CallArgs → ConvState → List EvalOut
  | [], _ => []
  | a :: rest, st =>
    let r := powerFunctionCall S a st
    r.1 :: callSeq S rest r.2

/-- The k-term evaluation the specification promises for fixed-terms mode.
Modelled from the spec: the sum of the first k terms of the series at x. -/
def fixedSum (S : ℕ → ℚ) (x : ℚ) (k : ℕ) : ℚ :=
  ((List.range k).map (fun i => S i * x ^ i)).sum

/-! Model of MemoizedGenerator (MemoizedGenerator.py).  The underlying
generator is a pure producer g : index of next() invocation to an optional
value (none models StopIteration).  The shared mutable state holds the
cache, the empty flag, and the position of every realization (cursor) of
the memoized generator; the execution of interleaved realizations is a
fold of single-cursor steps over an arbitrary schedule of cursor ids.  For
auditing the claims, each state also carries the log of producer
invocations (by the cache index each invocation was made for) and the log
of observations (cursor id, term index, value yielded to that cursor);
these logs are write-only instrumentation and influence nothing. -/

/-- Shared state of one MemoizedGenerator plus the positions of all of its
realizations (MemoizedGenerator.__init__, lines 117-123, and the loop
variable n of each realization of __call__, lines 125-152). -/
structure MGState (α : Type) where
  cache : List α
  empty : Bool
  pos : ℕ → ℕ
  log : List ℕ
  obs : List (ℕ × ℕ × α)

/-- Initial state: empty cache, not empty, every cursor at index 0. -/
def mgInit (α : Type) : MGState α := ⟨[], false, fun _ => 0, [], []⟩

/-- One iteration of the loop body of MemoizedGenerator.__call__ (lines
134-152) by cursor c, at its current index n: serve cache[n] when cached;
finish silently when the generator is known empty; otherwise invoke the
producer once at index len(cache), either appending and yielding the new
term or recording emptiness. -/
def mgStep {α : Type} (g : ℕ → Option α) (st : MGState α) (c : ℕ) : MGState α :=
  let n := st.pos c
  if h : n < st.cache.length then
    { st with pos := fun d => if d = c then n + 1 else st.pos d,
              obs := st.obs ++ [(c, n, st.cache.get ⟨n, h⟩)] }
  else if st.empty then st
  else
    match g st.cache.length with
    | some t =>
      { cache := st.cache ++ [t], empty := st.empty,
        pos := fun d => if d = c then n + 1 else st.pos d,
        log := st.log ++ [st.cache.length],
        obs := st.obs ++ [(c, n, t)] }
    | none => { st with empty := true, log := st.log ++ [st.cache.length] }

/-- Execution of an arbitrary interleaving of realizations: fold the
single-cursor step over a schedule of cursor ids. -/
def mgRun {α : Type} (g : ℕ → Option α) (sched : List ℕ) : MGState α :=
  sched.foldl (mgStep g) (mgInit α)

/-! Claims. -/

/-- Claim C3: for every PowerSeries S and every index n, the nth
coefficient of head(S) + xmul(tail(S)) equals the nth coefficient of S,
and the nth coefficient of tail(xmul(S)) equals the nth coefficient of
S. -/
theorem claim_C3_theorem (S : ℕ → ℚ) (n : ℕ) :
    add (head S) (xmul (tail S)) n = S n ∧ tail (xmul S) n = S n := by
  refine ⟨?_, rfl⟩
  cases n <;> simp [add, head, xmul, tail]

/-- Claim C6: for every PowerSeries S, every rational c and every index n,
the nth coefficient of derivative(S) is (n+1) times coefficient n+1 of S,
derivative(integral(S, c)) agrees with S at n, and
integral(derivative(S), S 0) agrees with S at n. -/
theorem claim_C6_theorem (S : ℕ → ℚ) (c : ℚ) (n : ℕ) :
    derivative S n = ((n : ℚ) + 1) * S (n + 1) ∧
    derivative (integral S c) n = S n ∧
    integral (derivative S) (S 0) n = S n := by
  have hne : ((n : ℚ) + 1) ≠ 0 := by positivity
  refine ⟨rfl, ?_, ?_⟩
  · show ((n : ℚ) + 1) * ((1 / ((n : ℚ) + 1)) * S n) = S n
    field_simp
  · cases n with
    | zero => rfl
    | succ m =>
      show (1 / ((m : ℚ) + 1)) * (((m : ℚ) + 1) * S (m + 1)) = S (m + 1)
      have hm : ((m : ℚ) + 1) ≠ 0 := by positivity
      field_simp

/-- Claim C7: each domain-restricted operation raises its domain error, at
construction, exactly when its precondition fails: reciprocal and
squareroot error iff the zeroth coefficient is 0, exponential and
logarithm error iff it is nonzero, compose errors iff the argument's
zeroth coefficient is nonzero, and inverse errors iff the zeroth
coefficient is nonzero or coefficient 1 is zero; otherwise each
constructor returns a series. -/
theorem claim_C7_theorem (S T : ℕ → ℚ) (s0 : ℚ) :
    (isOk (reciprocalE S) = true ↔ ¬ S 0 = 0) ∧
    (isOk (squarerootE s0 S) = true ↔ ¬ S 0 = 0) ∧
    (isOk (exponentialE S) = true ↔ S 0 = 0) ∧
    (isOk (logarithmE S) = true ↔ S 0 = 0) ∧
    (isOk (composeE S T) = true ↔ T 0 = 0) ∧
    (isOk (inverseE S) = true ↔ (S 0 = 0 ∧ ¬ S 1 = 0)) := by
  refine ⟨?_, ?_, ?_, ?_, ?_, ?_⟩
  · by_cases h : S 0 = 0 <;> simp [reciprocalE, isOk, h]
  · by_cases h : S 0 = 0 <;> simp [squarerootE, isOk, h]
  · by_cases h : S 0 = 0 <;> simp [exponentialE, isOk, h]
  · by_cases h : S 0 = 0 <;> simp [logarithmE, isOk, h]
  · by_cases h : T 0 = 0 <;> simp [composeE, isOk, h]
  · by_cases h : S 0 = 0 <;> by_cases h1 : S 1 = 0 <;>
      simp [inverseE, isOk, h, h1, tail]

/-- Claim C10: PowerFunction.__call__ overwrites all convergence-test
state at the start of every call, so the outcome of each call in any
sequence of calls on one PowerFunction is a function of that call's
arguments alone, independent of every earlier call and of the initial
state of the test fields. -/
theorem claim_C10_theorem (S : ℕ → ℚ) (calls : List CallArgs)
    (st : ConvState) :
    callSeq S calls st = calls.map (fun a => callResult S a) := by
  induction calls generalizing st with
  | nil => rfl
  | cons a rest ih =>
    show (powerFunctionCall S a st).1 ::
      callSeq S rest (powerFunctionCall S a st).2 = _
    rw [List.map_cons, ih]
    rfl

/-- The finite series PowerSeries(l=(10000, 1, 5, 5, 5, 5)): list
construction per powerseries.py lines 183-187, zero padded. -/
def fixedModeSeries : ℕ → ℚ := fun n => [(10000 : ℚ), 1, 5, 5, 5, 5].getD n 0

/-- Claim C1 evidence: the source runs the convergence test even when the
terms argument is given (powerfunc.py line 165 is not conditional on
terms).  Evaluating PowerSeries(l=(10000, 1, 5, 5, 5, 5)) at x = 1 with
terms=6 therefore stops after 2 terms through the convergence test and
returns 10001, not the 6-term sum 10021 promised by the __call__
docstring, the spec and the claim. -/
theorem claim_C1_theorem :
    callResult fixedModeSeries ⟨1, some 6, none, none⟩ =
      EvalOut.val 10001 2 true ∧
    fixedSum fixedModeSeries 1 6 = 10021 ∧
    (10001 : ℚ) ≠ 10021 := by decide!

/-- The series PowerSeries(f=...) whose even coefficients are 1 and odd
coefficients are 2: every term at x = 1 is nonzero, the absolute ratio of
consecutive terms alternates between 2 and 1/2, so the ratio test never
fires twice in a row. -/
def altOneTwo : ℕ → ℚ := fun n => if n % 2 = 0 then 1 else 2

/-- Claim C2 counterexample: adaptive evaluation (default arguments,
terms_max = 50) of altOneTwo at x = 1 raises DivergenceError, although
among the 50 terms consumed there are never even two consecutive
ratio-test firings, let alone more than ratio_max = 5 of them: the source
counter is cumulative and never reset. -/
theorem claim_C2_counterexample :
    callResult altOneTwo ⟨1, none, none, none⟩ = EvalOut.divergenceError ∧
    (List.range 48).all
      (fun n => !(decide (1 < |altOneTwo (n + 1) / altOneTwo n|) &&
                  decide (1 < |altOneTwo (n + 2) / altOneTwo (n + 1)|))) = true := by
  decide!

/-- Claim C2 amended: in adaptive evaluation, the ratio-fail counter is
cumulative over the whole call and is never reset; each nonzero term whose
absolute ratio to the stored last nonzero term exceeds 1 increments it,
and DivergenceError is raised at a term exactly when the term is nonzero,
the convergence test does not pass, and the incremented cumulative count
exceeds ratio_max.  Firings separated by non-firing terms therefore
accumulate toward divergence. -/
theorem claim_C2_theorem (err result term : ℚ) (st : ConvState) :
    (convergedStep err result term st = Except.error () ↔
      (term ≠ 0 ∧
        ¬ |(dequeAppend error_terms st.terms_last term).sum| < |err * result| ∧
        ratio_max < st.ratio_count +
          (if ratioFires st.ratio_last term then 1 else 0))) ∧
    (∀ b st2, convergedStep err result term st = Except.ok (b, st2) →
      st.ratio_count ≤ st2.ratio_count) := by
  constructor
  · by_cases h0 : term = 0
    · simp [convergedStep, h0]
    · by_cases hcv : |(dequeAppend error_terms st.terms_last term).sum| <
          |err * result|
      · simp [convergedStep, h0, hcv]
      · by_cases hfire : ratioFires st.ratio_last term
        · by_cases hcnt : ratio_max < st.ratio_count + 1
          · simp [convergedStep, h0, hcv, hfire, hcnt]
          · simp [convergedStep, h0, hcv, hfire, hcnt]
        · by_cases hcnt : ratio_max < st.ratio_count
          · simp [convergedStep, h0, hcv, hfire, hcnt]
          · simp [convergedStep, h0, hcv, hfire, hcnt]
  · intro b st2 h
    by_cases h0 : term = 0
    · simp [convergedStep, h0] at h
      rw [← h.2]
    · by_cases hcv : |(dequeAppend error_terms st.terms_last term).sum| <
          |err * result|
      · simp [convergedStep, h0, hcv] at h
        rw [← h.2]
      · by_cases hfire : ratioFires st.ratio_last term
        · by_cases hcnt : ratio_max < st.ratio_count + 1
          · simp [convergedStep, h0, hcv, hfire, hcnt] at h
          · simp [convergedStep, h0, hcv, hfire, hcnt] at h
            rw [← h.2]
            exact Nat.le_succ _
        · by_cases hcnt : ratio_max < st.ratio_count
          · simp [convergedStep, h0, hcv, hfire, hcnt] at h
          · simp [convergedStep, h0, hcv, hfire, hcnt] at h
            rw [← h.2]

/-- Claim C2 amended, witnessed at concrete inputs: a state with counter 5
and a firing term raises, and a firing step from counter 0 keeps the
counter monotone. -/
theorem claim_C2_witness :
    convergedStep 1 1 2 ⟨[], some 1, 5⟩ = Except.error () ∧
    ConvState.ratio_count ⟨[], some 1, 0⟩ ≤ ConvState.ratio_count ⟨[2], some 2, 1⟩ :=
  ⟨(claim_C2_theorem 1 1 2 ⟨[], some 1, 5⟩).1.mpr
      ⟨by decide!, by decide!, by decide!⟩,
   (claim_C2_theorem 1 1 2 ⟨[], some 1, 0⟩).2 false ⟨[2], some 2, 1⟩
      (by with_unfolding_all rfl)⟩

/-- Claim C9: evaluating the exponential series at x = 1 with terms=6
returns exactly 163/60; with the default adaptive mode and error tolerance
1/10000 it stops through the convergence criterion after 8 terms (fewer
than 10), returning 685/252, which is within 1/10000 of e. -/
theorem claim_C9_theorem :
    callResult expseries ⟨1, some 6, none, none⟩ =
      EvalOut.val (163 / 60) 6 false ∧
    callResult expseries ⟨1, none, some (1 / 10000), none⟩ =
      EvalOut.val (685 / 252) 8 true ∧
    8 < 10 ∧
    |(685 / 252 : ℝ) - Real.exp 1| < 1 / 10000 := by
  refine ⟨by decide!, by decide!, by norm_num, ?_⟩
  rw [abs_sub_lt_iff]
  have h1 := Real.exp_one_gt_d9
  have h2 := Real.exp_one_lt_d9
  norm_num at h1 h2 ⊢
  constructor <;> linarith

/-- Claim C4: for each named series S with nonzero zeroth coefficient
(ONE = nthpower(0), expseries, secseries, coshseries, sechseries), the
product S * reciprocal(S) equals ONE, and squareroot(S) * squareroot(S)
equals S, where equality is agreement of the first 10 coefficients and
the square root's s0 = Fraction.from_float(math.sqrt(1)) = 1. -/
theorem claim_C4_theorem :
    (seriesEq (mul (nthpower 0 1) (reciprocal (nthpower 0 1))) (nthpower 0 1) ∧
     seriesEq (mul (squareroot 1 (nthpower 0 1)) (squareroot 1 (nthpower 0 1)))
       (nthpower 0 1)) ∧
    (seriesEq (mul expseries (reciprocal expseries)) (nthpower 0 1) ∧
     seriesEq (mul (squareroot 1 expseries) (squareroot 1 expseries)) expseries) ∧
    (seriesEq (mul secseries (reciprocal secseries)) (nthpower 0 1) ∧
     seriesEq (mul (squareroot 1 secseries) (squareroot 1 secseries)) secseries) ∧
    (seriesEq (mul coshseries (reciprocal coshseries)) (nthpower 0 1) ∧
     seriesEq (mul (squareroot 1 coshseries) (squareroot 1 coshseries)) coshseries) ∧
    (seriesEq (mul sechseries (reciprocal sechseries)) (nthpower 0 1) ∧
     seriesEq (mul (squareroot 1 sechseries) (squareroot 1 sechseries)) sechseries) :=
  ⟨⟨by decide!, by decide!⟩, ⟨by decide!, by decide!⟩, ⟨by decide!, by decide!⟩,
   ⟨by decide!, by decide!⟩, ⟨by decide!, by decide!⟩⟩

/-- Claim C5: for every named series S with zeroth coefficient 0 and
coefficient 1 nonzero (X = nthpower(1), nseries, harmonicseries,
altharmonicseries, sinseries, tanseries, arcsinseries, arctanseries,
sinhseries, tanhseries, arcsinhseries, arctanhseries — the twelve named
constructors of the source satisfying the precondition; the remaining
named constructors all have nonzero zeroth coefficient, a zero
coefficient 1, or are the constant families whose qualifying member is
the empty series), inverse(inverse(S)) equals S and compose(S, inverse(S))
equals X, where equality is agreement of the first 10 coefficients. -/
theorem claim_C5_theorem :
    (seriesEq (inverse (inverse (nthpower 1 1))) (nthpower 1 1) ∧
     seriesEq (compose (nthpower 1 1) (inverse (nthpower 1 1))) (nthpower 1 1)) ∧
    (seriesEq (inverse (inverse nseries)) nseries ∧
     seriesEq (compose nseries (inverse nseries)) (nthpower 1 1)) ∧
    (seriesEq (inverse (inverse harmonicseries)) harmonicseries ∧
     seriesEq (compose harmonicseries (inverse harmonicseries)) (nthpower 1 1)) ∧
    (seriesEq (inverse (inverse altharmonicseries)) altharmonicseries ∧
     seriesEq (compose altharmonicseries (inverse altharmonicseries))
       (nthpower 1 1)) ∧
    (seriesEq (inverse (inverse sinseries)) sinseries ∧
     seriesEq (compose sinseries (inverse sinseries)) (nthpower 1 1)) ∧
    (seriesEq (inverse (inverse tanseries)) tanseries ∧
     seriesEq (compose tanseries (inverse tanseries)) (nthpower 1 1)) ∧
    (seriesEq (inverse (inverse arcsinseries)) arcsinseries ∧
     seriesEq (compose arcsinseries (inverse arcsinseries)) (nthpower 1 1)) ∧
    (seriesEq (inverse (inverse arctanseries)) arctanseries ∧
     seriesEq (compose arctanseries (inverse arctanseries)) (nthpower 1 1)) ∧
    (seriesEq (inverse (inverse sinhseries)) sinhseries ∧
     seriesEq (compose sinhseries (inverse sinhseries)) (nthpower 1 1)) ∧
    (seriesEq (inverse (inverse tanhseries)) tanhseries ∧
     seriesEq (compose tanhseries (inverse tanhseries)) (nthpower 1 1)) ∧
    (seriesEq (inverse (inverse arcsinhseries)) arcsinhseries ∧
     seriesEq (compose arcsinhseries (inverse arcsinhseries)) (nthpower 1 1)) ∧
    (seriesEq (inverse (inverse arctanhseries)) arctanhseries ∧
     seriesEq (compose arctanhseries (inverse arctanhseries)) (nthpower 1 1)) :=
  ⟨⟨by decide!, by decide!⟩, ⟨by decide!, by decide!⟩, ⟨by decide!, by decide!⟩,
   ⟨by decide!, by decide!⟩, ⟨by decide!, by decide!⟩, ⟨by decide!, by decide!⟩,
   ⟨by decide!, by decide!⟩, ⟨by decide!, by decide!⟩, ⟨by decide!, by decide!⟩,
   ⟨by decide!, by decide!⟩, ⟨by decide!, by decide!⟩, ⟨by decide!, by decide!⟩⟩

/-- Invariant of a MemoizedGenerator state: every cached entry is the value
the producer yielded at that index, the invocation log is exactly one
invocation per produced index (plus the final empty-signalling invocation),
every recorded observation carries the producer's value for its index, and
no cursor is past the cache. -/
def MGInv {α : Type} (g : ℕ → Option α) (st : MGState α) : Prop :=
  (∀ i, i < st.cache.length → st.cache[i]? = g i) ∧
  st.log = List.range st.cache.length ++
    (if st.empty then [st.cache.length] else []) ∧
  (∀ o ∈ st.obs, g o.2.1 = some o.2.2) ∧
  (∀ d, st.pos d ≤ st.cache.length)

theorem mgStep_inv {α : Type} (g : ℕ → Option α) (st : MGState α) (c : ℕ)
    (h : MGInv g st) : MGInv g (mgStep g st c) := by
  obtain ⟨h1, h2, h3, h4⟩ := h
  unfold MGInv mgStep
  by_cases hlt : st.pos c < st.cache.length
  · rw [dif_pos hlt]
    refine ⟨h1, h2, ?_, ?_⟩
    · intro o ho
      rcases List.mem_append.1 ho with ho | ho
      · exact h3 o ho
      · rw [List.mem_singleton] at ho
        subst ho
        have hq := h1 (st.pos c) hlt
        rw [List.getElem?_eq_getElem hlt] at hq
        rw [List.get_eq_getElem]
        exact hq.symm
    · intro d
      by_cases hd : d = c
      · simpa [hd] using hlt
      · simpa [hd] using h4 d
  · rw [dif_neg hlt]
    have hn : st.pos c = st.cache.length :=
      le_antisymm (h4 c) (Nat.le_of_not_lt hlt)
    by_cases hemp : st.empty
    · rw [if_pos hemp]
      exact ⟨h1, h2, h3, h4⟩
    · rw [if_neg hemp]
      rw [Bool.not_eq_true] at hemp
      cases hg : g st.cache.length with
      | some t =>
        refine ⟨?_, ?_, ?_, ?_⟩
        · intro i hi
          simp only [List.length_append, List.length_singleton] at hi
          rcases Nat.lt_succ_iff_lt_or_eq.1 hi with hi | hi
          · rw [List.getElem?_append_left hi]
            exact h1 i hi
          · subst hi
            rw [List.getElem?_concat_length]
            exact hg.symm
        · simp only [List.length_append, List.length_singleton, hemp,
            if_neg Bool.false_ne_true, List.append_nil] at h2 ⊢
          rw [h2, ← List.range_succ]
        · intro o ho
          rcases List.mem_append.1 ho with ho | ho
          · exact h3 o ho
          · rw [List.mem_singleton] at ho
            subst ho
            show g (st.pos c) = some t
            rw [hn, hg]
        · intro d
          simp only [List.length_append, List.length_singleton]
          by_cases hd : d = c
          · subst hd
            rw [if_pos rfl]
            omega
          · rw [if_neg hd]
            exact le_trans (h4 d) (Nat.le_succ _)
      | none =>
        refine ⟨h1, ?_, h3, h4⟩
        simp only [hemp, if_neg Bool.false_ne_true, List.append_nil] at h2
        simp [h2]

theorem mgFold_inv {α : Type} (g : ℕ → Option α) :
    ∀ (sched : List ℕ) (st : MGState α),
      MGInv g st → MGInv g (sched.foldl (mgStep g) st)
  | [], _, h => h
  | c :: rest, st, h => mgFold_inv g rest _ (mgStep_inv g st c h)

theorem mgInit_inv {α : Type} (g : ℕ → Option α) : MGInv g (mgInit α) := by
  refine ⟨?_, rfl, ?_, ?_⟩ <;> simp [mgInit]

/-- Claim C8: in any interleaved execution of realizations of one
MemoizedGenerator, the producer is invoked at most once per index (the
invocation log has no duplicates), every cached entry equals the
producer's value at its index, every value yielded to any realization is
the producer's value at that index, and consequently any two realizations
observe equal values at equal indices. -/
theorem claim_C8_theorem (α : Type) (g : ℕ → Option α) (sched : List ℕ) :
    (mgRun g sched).log.Nodup ∧
    (∀ i, i < (mgRun g sched).cache.length →
      (mgRun g sched).cache[i]? = g i) ∧
    (∀ o ∈ (mgRun g sched).obs, g o.2.1 = some o.2.2) ∧
    (∀ o p, o ∈ (mgRun g sched).obs → p ∈ (mgRun g sched).obs →
      o.2.1 = p.2.1 → o.2.2 = p.2.2) := by
  obtain ⟨h1, h2, h3, _⟩ := mgFold_inv g sched (mgInit α) (mgInit_inv g)
  refine ⟨?_, h1, h3, ?_⟩
  · rw [show (mgRun g sched).log = _ from h2]
    split_ifs with hemp
    · refine List.Nodup.append (List.nodup_range _) (List.nodup_singleton _) ?_
      intro x hx hx'
      rw [List.mem_singleton] at hx'
      subst hx'
      exact absurd (List.mem_range.1 hx) (lt_irrefl _)
    · rw [List.append_nil]
      exact List.nodup_range _
  · intro o p ho hp hop
    have hgo := h3 o ho
    have hgp := h3 p hp
    rw [hop, hgp] at hgo
    exact (Option.some.inj hgo).symm

/-- Claim C8 witnessed on a concrete producer and schedule: two
realizations interleaved on a three-term producer; the invocation log is
duplicate-free and the observation of cursor 0 at index 1 carries the
producer's value. -/
theorem claim_C8_witness :
    (mgRun (fun n => if n < 3 then some n else none) [0, 0, 2]).log.Nodup ∧
    (fun n => if n < 3 then some n else none) 1 = some 1 :=
  ⟨(claim_C8_theorem ℕ (fun n => if n < 3 then some n else none) [0, 0, 2]).1,
   (claim_C8_theorem ℕ (fun n => if n < 3 then some n else none) [0, 0, 2]).2.2.1
      (0, 1, 1) (by with_unfolding_all decide)⟩

/-! Fidelity of the selfRef embedding.  Every self-referential generator of
the source reads only strictly earlier coefficients of the series it
defines (productivity); the lemmas below make that precise and show that
each selfRef definition satisfies exactly the self-referential recurrence
written in the source. -/

/-- Two series agree on all coefficients below m. -/
def Agree (m : ℕ) (S T : ℕ → ℚ) : Prop := ∀ k, k < m → S k = T k

theorem smul_apply (c : ℚ) (S : ℕ → ℚ) (n : ℕ) : smul c S n = c * S n := by
  unfold smul
  split_ifs with h1 h0
  · rw [h1, one_mul]
  · rw [h0, zero_mul]
  · rfl

/-- The product reads its factors only up to the index produced. -/
theorem mul_local : ∀ (n : ℕ) (S S2 T T2 : ℕ → ℚ),
    Agree (n + 1) S S2 → Agree (n + 1) T T2 → mul S T n = mul S2 T2 n
  | 0, S, S2, T, T2, hS, hT => by
    show S 0 * T 0 = S2 0 * T2 0
    rw [hS 0 (by omega), hT 0 (by omega)]
  | 1, S, S2, T, T2, hS, hT => by
    show 0 + (if S 0 ≠ 0 then S 0 * tail T 0 else 0)
        + (if T 0 ≠ 0 then T 0 * tail S 0 else 0) = _
    simp only [tail]
    rw [hS 0 (by omega), hT 0 (by omega), hS 1 (by omega), hT 1 (by omega)]
    rfl
  | m + 2, S, S2, T, T2, hS, hT => by
    have hrec := mul_local m (tail S) (tail S2) (tail T) (tail T2)
      (fun k hk => hS (k + 1) (by omega)) (fun k hk => hT (k + 1) (by omega))
    show mul (tail S) (tail T) m + (if S 0 ≠ 0 then S 0 * tail T (m + 1) else 0)
        + (if T 0 ≠ 0 then T 0 * tail S (m + 1) else 0) = _
    simp only [tail]
    rw [hrec, hS 0 (by omega), hT 0 (by omega), hS (m + 2) (by omega),
      hT (m + 2) (by omega)]
    rfl

/-- The integral reads its operand only strictly below the index
produced. -/
theorem integral_local (n : ℕ) (c : ℚ) (S S2 : ℕ → ℚ) (h : Agree n S S2) :
    integral S c n = integral S2 c n := by
  cases n with
  | zero => rfl
  | succ m =>
    show (1 / ((m : ℚ) + 1)) * S m = (1 / ((m : ℚ) + 1)) * S2 m
    rw [h m (by omega)]

theorem getD_append_lt (l l2 : List ℚ) (k : ℕ) (h : k < l.length) :
    (l ++ l2).getD k 0 = l.getD k 0 := by
  rw [List.getD_eq_getElem?_getD, List.getD_eq_getElem?_getD,
    List.getElem?_append_left h]

theorem getD_concat_len (l : List ℚ) (x : ℚ) :
    (l ++ [x]).getD l.length 0 = x := by
  rw [List.getD_eq_getElem?_getD, List.getElem?_concat_length]
  rfl

theorem getD_map_range (f : ℕ → ℚ) (L j : ℕ) (h : j < L) :
    ((List.range L).map f).getD j 0 = f j := by
  rw [List.getD_eq_getElem?_getD, List.getElem?_map, List.getElem?_range h]
  rfl

theorem selfRefList_length (next : (ℕ → ℚ) → ℕ → ℚ) :
    ∀ n, (selfRefList next n).length = n
  | 0 => rfl
  | n + 1 => by
    show (selfRefList next n ++ [_]).length = n + 1
    rw [List.length_append, selfRefList_length next n]
    rfl

/-- The prefix caches are coherent: a longer cache extends a shorter one. -/
theorem selfRefList_stable (next : (ℕ → ℚ) → ℕ → ℚ) :
    ∀ (n m : ℕ), m ≤ n → ∀ k, k < m →
      (selfRefList next n).getD k 0 = (selfRefList next m).getD k 0
  | 0, m, hm, k, hk => by omega
  | n + 1, m, hm, k, hk => by
    rcases Nat.eq_or_lt_of_le hm with h | h
    · rw [h]
    · have hmn : m ≤ n := by omega
      show (selfRefList next n ++ [_]).getD k 0 = _
      rw [getD_append_lt _ _ k (by rw [selfRefList_length]; omega)]
      exact selfRefList_stable next n m hmn k hk

/-- Coefficient k of the series is entry k of every long-enough cache. -/
theorem selfRef_entry (next : (ℕ → ℚ) → ℕ → ℚ) (n k : ℕ) (hk : k < n) :
    selfRef next k = (selfRefList next n).getD k 0 :=
  (selfRefList_stable next n (k + 1) hk k (by omega)).symm

theorem selfRefList_last (next : (ℕ → ℚ) → ℕ → ℚ) (n : ℕ) :
    (selfRefList next (n + 1)).getD n 0 =
      next (fun k => (selfRefList next n).getD k 0) n := by
  have hlen := selfRefList_length next n
  have h := getD_concat_len (selfRefList next n)
    (next (fun k => (selfRefList next n).getD k 0) n)
  rw [hlen] at h
  exact h

/-- A productive step function: coefficient n is computed from strictly
earlier coefficients only.  Every self-referential generator in the source
has this property; it is what lets the generator yield each term before
the recursion demands it. -/
def LocalStep (next : (ℕ → ℚ) → ℕ → ℚ) : Prop :=
  ∀ (f f2 : ℕ → ℚ) (n : ℕ), (∀ k, k < n → f k = f2 k) → next f n = next f2 n

/-- The selfRef embedding of a productive generator satisfies the
source's self-referential recurrence: coefficient n of the resulting
series is the step function applied to the series itself. -/
theorem selfRef_fix (next : (ℕ → ℚ) → ℕ → ℚ) (h : LocalStep next) (n : ℕ) :
    selfRef next n = next (selfRef next) n := by
  show (selfRefList next (n + 1)).getD n 0 = _
  rw [selfRefList_last]
  exact h _ _ n (fun k hk => (selfRef_entry next n k hk).symm)

theorem selfRefList_congr (next next2 : (ℕ → ℚ) → ℕ → ℚ) :
    ∀ n, (∀ (f : ℕ → ℚ) (k : ℕ), k < n → next f k = next2 f k) →
      selfRefList next n = selfRefList next2 n
  | 0, _ => rfl
  | n + 1, h => by
    have ih := selfRefList_congr next next2 n (fun f k hk => h f k (by omega))
    show selfRefList next n ++ [next _ n] = selfRefList next2 n ++ [next2 _ n]
    rw [ih, h _ n (by omega)]

theorem reciprocal_localstep (S : ℕ → ℚ) :
    LocalStep (fun R j =>
      match j with
      | 0 => 1 / S 0
      | m + 1 => smul (-(1 / S 0)) (mul (tail S) R) m) := by
  intro f f2 n h
  match n with
  | 0 => rfl
  | m + 1 =>
    show smul (-(1 / S 0)) (mul (tail S) f) m =
      smul (-(1 / S 0)) (mul (tail S) f2) m
    rw [smul_apply, smul_apply,
      mul_local m (tail S) (tail S) f f2 (fun k _ => rfl)
        (fun k hk => h k (by omega))]

/-- The embedded reciprocal satisfies the source recurrence of
PowerSeries.reciprocal: the zeroth coefficient is r = 1/S0 and
coefficient n+1 is coefficient n of (-r) * (tail S * reciprocal S). -/
theorem reciprocal_fix (S : ℕ → ℚ) (n : ℕ) :
    reciprocal S 0 = 1 / S 0 ∧
    reciprocal S (n + 1) = smul (-(1 / S 0)) (mul (tail S) (reciprocal S)) n :=
  ⟨rfl, selfRef_fix _ (reciprocal_localstep S) (n + 1)⟩

/-- The reciprocal reads its operand only up to the index produced. -/
theorem reciprocal_local (n : ℕ) (S S2 : ℕ → ℚ) (h : Agree (n + 1) S S2) :
    reciprocal S n = reciprocal S2 n := by
  unfold reciprocal selfRef
  rw [selfRefList_congr _ _ (n + 1) ?_]
  intro f k hk
  match k with
  | 0 =>
    show 1 / S 0 = 1 / S2 0
    rw [h 0 (by omega)]
  | m + 1 =>
    show smul (-(1 / S 0)) (mul (tail S) f) m =
      smul (-(1 / S2 0)) (mul (tail S2) f) m
    rw [smul_apply, smul_apply, h 0 (by omega),
      mul_local m (tail S) (tail S2) f f
        (fun k hk2 => h (k + 1) (by omega)) (fun k _ => rfl)]

theorem exponential_localstep (S : ℕ → ℚ) :
    LocalStep (fun E j => integral (mul E (derivative S)) 1 j) := by
  intro f f2 n h
  match n with
  | 0 => rfl
  | m + 1 =>
    show (1 / ((m : ℚ) + 1)) * mul f (derivative S) m =
      (1 / ((m : ℚ) + 1)) * mul f2 (derivative S) m
    rw [mul_local m f f2 (derivative S) (derivative S)
      (fun k hk => h k (by omega)) (fun k _ => rfl)]

/-- The embedded exponential satisfies the source recurrence of
PowerSeries.exponential: E = (E * derivative S).integral(1). -/
theorem exponential_fix (S : ℕ → ℚ) (n : ℕ) :
    exponential S n = integral (mul (exponential S) (derivative S)) 1 n :=
  selfRef_fix _ (exponential_localstep S) n

theorem composePre_length (T : ℕ → ℚ) :
    ∀ (S : ℕ → ℚ) (L : ℕ), (composePre T S L).length = L
  | _, 0 => rfl
  | S, L + 1 => by
    show (_ :: (List.range L).map _).length = L + 1
    rw [List.length_cons, List.length_map, List.length_range]

/-- The composition prefix caches are coherent: a longer prefix extends a
shorter one. -/
theorem composePre_stable (T : ℕ → ℚ) :
    ∀ (n : ℕ) (S : ℕ → ℚ) (m : ℕ), m ≤ n → ∀ k, k < m →
      (composePre T S n).getD k 0 = (composePre T S m).getD k 0
  | 0, _, m, hm, k, hk => by omega
  | n + 1, S, m, hm, k, hk => by
    match m, hm, hk with
    | m' + 1, hm, hk =>
      match k, hk with
      | 0, _ => rfl
      | j + 1, hk =>
        show ((List.range n).map _).getD j 0 = ((List.range m').map _).getD j 0
        rw [getD_map_range _ n j (by omega), getD_map_range _ m' j (by omega)]
        exact mul_local j (tail T) (tail T) _ _ (fun i _ => rfl)
          (fun i hi => composePre_stable T n (tail S) m' (by omega) i (by omega))

/-- Coefficient k of the composition is entry k of every long-enough
prefix. -/
theorem compose_entry (T S : ℕ → ℚ) (L k : ℕ) (hk : k < L) :
    compose S T k = (composePre T S L).getD k 0 :=
  (composePre_stable T L S (k + 1) hk k (by omega)).symm

/-- The embedded composition satisfies the source recurrence of
PowerSeries.compose: the zeroth coefficient is S0 and coefficient n+1 is
coefficient n of tail T * (tail S)(T). -/
theorem compose_fix (S T : ℕ → ℚ) (n : ℕ) :
    compose S T 0 = S 0 ∧
    compose S T (n + 1) = mul (tail T) (compose (tail S) T) n := by
  refine ⟨rfl, ?_⟩
  show (composePre T S (n + 2)).getD (n + 1) 0 = _
  show (S 0 :: (List.range (n + 1)).map _).getD (n + 1) 0 = _
  show ((List.range (n + 1)).map _).getD n 0 = _
  rw [getD_map_range _ (n + 1) n (by omega)]
  exact mul_local n (tail T) (tail T) _ _ (fun i _ => rfl)
    (fun i hi => (compose_entry T (tail S) (n + 1) i (by omega)).symm)

/-- The composition reads both operands only up to the index produced. -/
theorem composePre_congr (T T2 : ℕ → ℚ) :
    ∀ (L : ℕ) (S S2 : ℕ → ℚ), Agree L S S2 → Agree L T T2 →
      composePre T S L = composePre T2 S2 L
  | 0, _, _, _, _ => rfl
  | L + 1, S, S2, hS, hT => by
    have ih := composePre_congr T T2 L (tail S) (tail S2)
      (fun k hk => hS (k + 1) (by omega)) (fun k hk => hT k (by omega))
    show S 0 :: (List.range L).map _ = S2 0 :: (List.range L).map _
    rw [hS 0 (by omega), ih]
    refine congrArg _ (List.map_congr_left ?_)
    intro m hm
    rw [List.mem_range] at hm
    exact mul_local m (tail T) (tail T2) _ _
      (fun i hi => hT (i + 1) (by omega)) (fun i _ => rfl)

theorem compose_local (n : ℕ) (S S2 T T2 : ℕ → ℚ)
    (hS : Agree (n + 1) S S2) (hT : Agree (n + 1) T T2) :
    compose S T n = compose S2 T2 n := by
  unfold compose
  rw [composePre_congr T T2 (n + 1) S S2 hS hT]

theorem squareroot_localstep (s0 : ℚ) (S : ℕ → ℚ) :
    LocalStep (fun Q j =>
      match j with
      | 0 => s0
      | m + 1 => mul (tail S) (reciprocal (add Q (nthpower 0 s0))) m) := by
  intro f f2 n h
  match n with
  | 0 => rfl
  | m + 1 =>
    show mul (tail S) (reciprocal (add f (nthpower 0 s0))) m =
      mul (tail S) (reciprocal (add f2 (nthpower 0 s0))) m
    refine mul_local m (tail S) (tail S) _ _ (fun k _ => rfl) ?_
    intro k hk
    refine reciprocal_local k _ _ ?_
    intro i hi
    show f i + nthpower 0 s0 i = f2 i + nthpower 0 s0 i
    rw [h i (by omega)]

/-- The embedded square root satisfies the source recurrence of
PowerSeries.squareroot: the zeroth coefficient is s0 and coefficient n+1
is coefficient n of tail S * (s0 + SQ).reciprocal(). -/
theorem squareroot_fix (s0 : ℚ) (S : ℕ → ℚ) (n : ℕ) :
    squareroot s0 S 0 = s0 ∧
    squareroot s0 S (n + 1) =
      mul (tail S) (reciprocal (add (squareroot s0 S) (nthpower 0 s0))) n :=
  ⟨rfl, selfRef_fix _ (squareroot_localstep s0 S) (n + 1)⟩

theorem inverse_localstep (S : ℕ → ℚ) :
    LocalStep (fun I j =>
      match j with
      | 0 => 0
      | 1 => 1 / tail S 0
      | m + 2 => smul (-(1 / tail S 0))
          (mul (mul (tail I) (tail I)) (compose (tail (tail S)) I)) m) := by
  intro f f2 n h
  match n with
  | 0 => rfl
  | 1 => rfl
  | m + 2 =>
    show smul (-(1 / tail S 0))
        (mul (mul (tail f) (tail f)) (compose (tail (tail S)) f)) m =
      smul (-(1 / tail S 0))
        (mul (mul (tail f2) (tail f2)) (compose (tail (tail S)) f2)) m
    rw [smul_apply, smul_apply]
    refine congrArg _ (mul_local m _ _ _ _ ?_ ?_)
    · intro k hk
      exact mul_local k (tail f) (tail f2) (tail f) (tail f2)
        (fun i hi => h (i + 1) (by omega)) (fun i hi => h (i + 1) (by omega))
    · intro k hk
      exact compose_local k (tail (tail S)) (tail (tail S)) f f2
        (fun i _ => rfl) (fun i hi => h i (by omega))

/-- The embedded compositional inverse satisfies the source recurrence of
PowerSeries.inverse: it yields 0, then r = 1/(tail S)0, and coefficient
n+2 is coefficient n of (-r) * ((tail I * tail I) * (tail (tail S))(I)). -/
theorem inverse_fix (S : ℕ → ℚ) (n : ℕ) :
    inverse S 0 = 0 ∧
    inverse S 1 = 1 / tail S 0 ∧
    inverse S (n + 2) = smul (-(1 / tail S 0))
      (mul (mul (tail (inverse S)) (tail (inverse S)))
        (compose (tail (tail S)) (inverse S))) n :=
  ⟨rfl, rfl, selfRef_fix _ (inverse_localstep S) (n + 2)⟩

/-- The embedded exponential series satisfies its source definition
EXP = integ(EXP, 1) (powerseries.py lines 911-915). -/
theorem expseries_fix (n : ℕ) : expseries n = integral expseries 1 n := by
  refine selfRef_fix _ ?_ n
  intro f f2 m h
  match m with
  | 0 => rfl
  | m + 1 =>
    show (1 / ((m : ℚ) + 1)) * f m = (1 / ((m : ℚ) + 1)) * f2 m
    rw [h m (by omega)]

/-- The embedded tangent series satisfies its source definition
TAN = integ(ONE + (TAN * TAN)) (powerseries.py lines 1000-1005). -/
theorem tanseries_fix (n : ℕ) :
    tanseries n = integral (add (nthpower 0 1) (mul tanseries tanseries)) 0 n := by
  refine selfRef_fix _ ?_ n
  intro f f2 m h
  match m with
  | 0 => rfl
  | m + 1 =>
    show (1 / ((m : ℚ) + 1)) * add (nthpower 0 1) (mul f f) m =
      (1 / ((m : ℚ) + 1)) * add (nthpower 0 1) (mul f2 f2) m
    have := mul_local m f f2 f f2 (fun k hk => h k (by omega))
      (fun k hk => h k (by omega))
    show (1 / ((m : ℚ) + 1)) * (nthpower 0 1 m + mul f f m) = _
    rw [this]
    rfl

/-- The embedded secant series satisfies its source definition
SEC = integ(SEC * TAN, 1) (powerseries.py lines 1029-1034). -/
theorem secseries_fix (n : ℕ) :
    secseries n = integral (mul secseries tanseries) 1 n := by
  refine selfRef_fix _ ?_ n
  intro f f2 m h
  match m with
  | 0 => rfl
  | m + 1 =>
    show (1 / ((m : ℚ) + 1)) * mul f tanseries m =
      (1 / ((m : ℚ) + 1)) * mul f2 tanseries m
    rw [mul_local m f f2 tanseries tanseries (fun k hk => h k (by omega))
      (fun k _ => rfl)]

/-- The embedded sine series satisfies its source definition
SIN = integ(integ(-SIN, 1)) (powerseries.py lines 937-941). -/
theorem sinseries_fix (n : ℕ) :
    sinseries n = integral (integral (smul (-1) sinseries) 1) 0 n := by
  refine selfRef_fix _ ?_ n
  intro f f2 m h
  match m with
  | 0 => rfl
  | 1 => rfl
  | m + 2 =>
    simp only [integral, smul_apply]
    rw [h m (by omega)]

/-- The embedded hyperbolic sine series satisfies its source definition
SINH = integ(integ(SINH, 1)) (powerseries.py lines 1138-1142). -/
theorem sinhseries_fix (n : ℕ) :
    sinhseries n = integral (integral sinhseries 1) 0 n := by
  refine selfRef_fix _ ?_ n
  intro f f2 m h
  match m with
  | 0 => rfl
  | 1 => rfl
  | m + 2 =>
    simp only [integral]
    rw [h m (by omega)]

/-- The embedded cosine series satisfies its source definition
COS = integ(integ(-COS), 1) (powerseries.py lines 968-972). -/
theorem cosseries_fix (n : ℕ) :
    cosseries n = integral (integral (smul (-1) cosseries) 0) 1 n := by
  refine selfRef_fix _ ?_ n
  intro f f2 m h
  match m with
  | 0 => rfl
  | 1 => rfl
  | m + 2 =>
    simp only [integral, smul_apply]
    rw [h m (by omega)]

/-- The embedded hyperbolic cosine series satisfies its source definition
COSH = integ(integ(COSH), 1) (powerseries.py lines 1169-1173). -/
theorem coshseries_fix (n : ℕ) :
    coshseries n = integral (integral coshseries 0) 1 n := by
  refine selfRef_fix _ ?_ n
  intro f f2 m h
  match m with
  | 0 => rfl
  | 1 => rfl
  | m + 2 =>
    simp only [integral]
    rw [h m (by omega)]

/-- The embedded hyperbolic tangent series satisfies its source definition
TANH = integ(ONE - (TANH * TANH)) (powerseries.py lines 1198-1203). -/
theorem tanhseries_fix (n : ℕ) :
    tanhseries n =
      integral (add (nthpower 0 1) (smul (-1) (mul tanhseries tanhseries))) 0 n := by
  refine selfRef_fix _ ?_ n
  intro f f2 m h
  match m with
  | 0 => rfl
  | m + 1 =>
    show (1 / ((m : ℚ) + 1)) * add (nthpower 0 1) (smul (-1) (mul f f)) m =
      (1 / ((m : ℚ) + 1)) * add (nthpower 0 1) (smul (-1) (mul f2 f2)) m
    have := mul_local m f f2 f f2 (fun k hk => h k (by omega))
      (fun k hk => h k (by omega))
    show (1 / ((m : ℚ) + 1)) * (nthpower 0 1 m + smul (-1) (mul f f) m) = _
    rw [smul_apply, this]
    rfl

/-- The embedded hyperbolic secant series satisfies its source definition
SECH = integ(- SECH * TANH, 1) (powerseries.py lines 1225-1230). -/
theorem sechseries_fix (n : ℕ) :
    sechseries n = integral (mul (smul (-1) sechseries) tanhseries) 1 n := by
  refine selfRef_fix _ ?_ n
  intro f f2 m h
  match m with
  | 0 => rfl
  | m + 1 =>
    show (1 / ((m : ℚ) + 1)) * mul (smul (-1) f) tanhseries m =
      (1 / ((m : ℚ) + 1)) * mul (smul (-1) f2) tanhseries m
    rw [mul_local m (smul (-1) f) (smul (-1) f2) tanhseries tanhseries
      (fun k hk => by rw [smul_apply, smul_apply, h k (by omega)])
      (fun k _ => rfl)]

end PowSer
